import Mathlib

/-!
Verification of the `wc-envc` core: the per-line cipher engine
(`src/engine.rs`) and the filename classifier (`src/scanner.rs`).

Rust strings are embedded as `List Char`; each Rust function used by the
claims is translated into an executable Lean definition of the same name.
-/

namespace Envc

/-- Strings are modelled as lists of characters. -/
abbrev Str := List Char

/-- Conversion from Lean string literals to the `Str` embedding. -/
def strOf (s : String) : Str := s.data

/-- Model of Rust `char::is_whitespace` (the Unicode `White_Space` property). -/
def isRustWhitespace (c : Char) : Bool :=
  let n := c.toNat
  decide ((9 ≤ n ∧ n ≤ 13) ∨ n = 32 ∨ n = 0x85 ∨ n = 0xA0 ∨ n = 0x1680 ∨
    (0x2000 ≤ n ∧ n ≤ 0x200A) ∨ n = 0x2028 ∨ n = 0x2029 ∨ n = 0x202F ∨
    n = 0x205F ∨ n = 0x3000)

/-- Model of Rust `str::trim_start`. -/
def trimStart (s : Str) : Str := s.dropWhile isRustWhitespace

/-- Model of Rust `str::trim_end`. -/
def trimEnd (s : Str) : Str := (s.reverse.dropWhile isRustWhitespace).reverse

/-- Model of Rust `str::trim`: whitespace removed from both ends. -/
def trim (s : Str) : Str := trimEnd (trimStart s)

/-- Split a string at every `'\n'`; the result always has one more part
than there are newline characters. -/
def splitNl : Str → List Str
  | [] => [[]]
  | c :: rest =>
    if c = '\n' then [] :: splitNl rest
    else
      match splitNl rest with
      | [] => [[c]]
      | h :: t => (c :: h) :: t

/-- Remove one trailing `'\r'` if present (Rust `lines` strips the `\r`
of a `\r\n` ending). -/
def stripCR (l : Str) : Str :=
  match l.getLast? with
  | some c => if c = '\r' then l.dropLast else l
  | none => l

/-- All parts except the final one were `'\n'`-terminated, so they lose a
trailing `'\r'`; the final part is dropped when empty (optional final
line ending) and otherwise kept verbatim. -/
def rustLinesAux : List Str → List Str
  | [] => []
  | [last] => if last = [] then [] else [last]
  | part :: rest => stripCR part :: rustLinesAux rest

/-- Model of Rust `str::lines`. -/
def rustLines (s : Str) : List Str := rustLinesAux (splitNl s)

/-- Model of `Vec::join("\n")` on the collected output lines. -/
def joinLines : List Str → Str
  | [] => []
  | [l] => l
  | l :: rest => l ++ '\n' :: joinLines rest

/-- Model of Rust `str::find('=')`: index of the first `'='`. -/
def findEq : Str → Option Nat
  | [] => none
  | c :: r => if c = '=' then some 0 else (findEq r).map (· + 1)

/-- The key span of a line: everything before the first `'='`. -/
def keyOf (l : Str) : Str := l.takeWhile (fun c => !(c == '='))

/-- The value span of a line: everything after the first `'='`. -/
def valueOf (l : Str) : Str := (l.dropWhile (fun c => !(c == '='))).drop 1

/-- A line the engine passes through without looking for `'='`: blank
after trimming, or a `#` comment. -/
def skippable (line : Str) : Bool :=
  match trim line with
  | [] => true
  | c :: _ => c == '#'

/-- An assignment line: non-blank, non-comment, and containing `'='`. -/
def isAssignment (l : Str) : Bool := !skippable l && (findEq l).isSome

/-! ### Cipher model

The repository delegates the symmetric cipher to the external `magic_crypt`
crate (`new_magic_crypt!(password, 256)` plus `encrypt_str_to_base64` /
`decrypt_base64_to_string`), whose internals are not part of `src/`.
It is modelled here as a deterministic, injective, whitespace-free text
encoding of the password together with the plaintext, which a decryption
under the same password inverts and a decryption under any other password
rejects. -/

/-- Unary code for a natural number, terminated by `'.'`. -/
def encNat (n : Nat) : Str := List.replicate n '1' ++ ['.']

/-- Code for one character: the unary code of its code point. -/
def encChar (c : Char) : Str := encNat c.toNat

/-- Length-prefixed code for a string. -/
def encStr (s : Str) : Str := encNat s.length ++ (s.map encChar).flatten

/-- Modelled from the spec: the password-based symmetric cipher provided by
the external `magic_crypt` crate. The ciphertext is a deterministic,
whitespace-free text encoding determined by the password and the plaintext
("strength equivalent to a 256-bit symmetric cipher with password-derived
key material"; the cipher derives all key material from the password alone). -/
def cipherEncode (password plaintext : Str) : Str :=
  encStr password ++ encStr plaintext

/-- Parse one unary-coded number; fails unless the ones are followed by `'.'`. -/
def decodeNat (s : Str) : Option (Nat × Str) :=
  match s.drop ((s.takeWhile (fun c => c == '1')).length) with
  | '.' :: r => some ((s.takeWhile (fun c => c == '1')).length, r)
  | _ => none

/-- Parse `k` coded characters. -/
def decodeChars : Nat → Str → Option (Str × Str)
  | 0, s => some ([], s)
  | k + 1, s =>
    match decodeNat s with
    | none => none
    | some (n, r) =>
      match decodeChars k r with
      | none => none
      | some (cs, r') => some (Char.ofNat n :: cs, r')

/-- Parse one length-prefixed coded string. -/
def decodeStr (s : Str) : Option (Str × Str) :=
  match decodeNat s with
  | none => none
  | some (k, r) => decodeChars k r

/-- Modelled from the spec: inversion of the `magic_crypt` cipher. Succeeds
exactly on full ciphertexts produced by `cipherEncode`, recovering the
password they were produced under together with the plaintext. -/
def cipherDecode (s : Str) : Option (Str × Str) :=
  match decodeStr s with
  | none => none
  | some (p, r) =>
    match decodeStr r with
    | none => none
    | some (v, r') => if r' = [] then some (p, v) else none

/-- The single engine error: wrong password and malformed ciphertext are
deliberately indistinguishable. -/
inductive CipherError where
  | decryptionFailed
  deriving DecidableEq

/-- `encrypt_value` from `src/engine.rs`: the value is trimmed and then
encrypted under the password. -/
def encrypt_value (value : Str) (password : Str) : Str :=
  cipherEncode password (trim value)

/-- `decrypt_value` from `src/engine.rs`: the input is trimmed and decrypted;
a wrong password or invalid data yields the one conflated error. -/
def decrypt_value (encrypted : Str) (password : Str) : Except CipherError Str :=
  match cipherDecode (trim encrypted) with
  | some (p, v) => if p = password then .ok v else .error .decryptionFailed
  | none => .error .decryptionFailed

/-- `ProcessMode` from `src/engine.rs`. -/
inductive ProcessMode where
  | Encrypt
  | Decrypt
  deriving DecidableEq

/-! ### Base64 validity model

`is_likely_encrypted` calls the external `base64` crate
(`general_purpose::STANDARD.decode`); decodability under that engine is
modelled as: length divisible by 4, at most two `'='` of padding at the
end, every other character in the standard alphabet, and canonical
(zero) unused trailing bits in the final symbol. -/

/-- Index of a character in the standard base64 alphabet. -/
def b64CharIndex (c : Char) : Option Nat :=
  let n := c.toNat
  if 65 ≤ n ∧ n ≤ 90 then some (n - 65)
  else if 97 ≤ n ∧ n ≤ 122 then some (n - 71)
  else if 48 ≤ n ∧ n ≤ 57 then some (n + 4)
  else if n = 43 then some 62
  else if n = 47 then some 63
  else none

/-- Modelled from the spec: success of the external `base64` crate's
standard-alphabet decoder on a string ("decodes successfully under the
text encoding used for ciphertext"). -/
def is_valid_base64_standard (s : Str) : Bool :=
  let padLen := (s.reverse.takeWhile (fun c => c == '=')).length
  let body := s.take (s.length - padLen)
  decide (s.length % 4 = 0) && decide (padLen ≤ 2) &&
  body.all (fun c => (b64CharIndex c).isSome) &&
  (match padLen, body.getLast? with
   | 0, _ => true
   | 1, some c => match b64CharIndex c with
     | some n => decide (n % 4 = 0)
     | none => false
   | 2, some c => match b64CharIndex c with
     | some n => decide (n % 16 = 0)
     | none => false
   | _, _ => false)

/-- `is_likely_encrypted` from `src/engine.rs`: the trimmed value is
non-empty, decodes as standard base64, and is at least 8 characters long. -/
def is_likely_encrypted (value : Str) : Bool :=
  let trimmed := trim value
  if trimmed.isEmpty then false
  else is_valid_base64_standard trimmed && decide (8 ≤ trimmed.length)

/-! ### The line and file transformations -/

/-- `process_line` from `src/engine.rs`. Blank and comment lines pass
through verbatim; a line with `'='` keeps its key span and has its value
span ciphered; a line without `'='` passes through verbatim. -/
def process_line (line : Str) (password : Str) (mode : ProcessMode) :
    Except CipherError Str :=
  if skippable line then .ok line
  else
    match findEq line with
    | some i =>
      match mode with
      | .Encrypt => .ok (line.take i ++ '=' :: encrypt_value (line.drop (i + 1)) password)
      | .Decrypt =>
        match decrypt_value (line.drop (i + 1)) password with
        | .ok d => .ok (line.take i ++ '=' :: d)
        | .error e => .error e
    | none => .ok line

/-- The loop body of `process_file` from `src/engine.rs`, as a structural
recursion over the list of lines: each line is processed (any failure
aborting the whole run), and for every non-blank, non-comment line with
`'='` the trimmed key span is recorded. -/
def processFileLines (ls : List Str) (password : Str) (mode : ProcessMode) :
    Except CipherError (List Str × List Str) :=
  match ls with
  | [] => .ok ([], [])
  | line :: rest =>
    match process_line line password mode with
    | .error e => .error e
    | .ok processed =>
      match processFileLines rest password mode with
      | .error e => .error e
      | .ok (outs, keys) =>
        let tracked : List Str :=
          match findEq line with
          | some i => if skippable line then [] else [trim (line.take i)]
          | none => []
        .ok (processed :: outs, tracked ++ keys)

/-- `process_file` from `src/engine.rs`: split the content with `lines()`,
process each line, and rejoin with `'\n'`. -/
def process_file (content : Str) (password : Str) (mode : ProcessMode) :
    Except CipherError (Str × List Str) :=
  match processFileLines (rustLines content) password mode with
  | .error e => .error e
  | .ok (outs, keys) => .ok (joinLines outs, keys)

/-- The two validation errors of `validate_encrypted_file`. -/
inductive ValidationError where
  | noVariables
  | appearsUnencrypted
  deriving DecidableEq

/-- The scanning loop of `validate_encrypted_file` from `src/engine.rs`:
whether any variable line was seen, how many values look encrypted, and
how many look plain. -/
def validateScan : List Str → Bool × Nat × Nat
  | [] => (false, 0, 0)
  | line :: rest =>
    if skippable line then validateScan rest
    else
      match findEq line with
      | some i =>
        if is_likely_encrypted (line.drop (i + 1)) then
          (true, (validateScan rest).2.1 + 1, (validateScan rest).2.2)
        else (true, (validateScan rest).2.1, (validateScan rest).2.2 + 1)
      | none => validateScan rest

/-- `validate_encrypted_file` from `src/engine.rs`. -/
def validate_encrypted_file (content : Str) : Except ValidationError Unit :=
  let res := validateScan (rustLines content)
  if res.1 = false then .error .noVariables
  else if res.2.1 = 0 ∧ 0 < res.2.2 then .error .appearsUnencrypted
  else .ok ()

/-- Whether an engine result is a success (`Result::is_ok`). -/
def exOk {ε α : Type} : Except ε α → Bool
  | .ok _ => true
  | .error _ => false

instance {ε α : Type} [DecidableEq ε] [DecidableEq α] : DecidableEq (Except ε α)
  | .ok a, .ok b =>
    if h : a = b then isTrue (by rw [h])
    else isFalse (by intro he; cases he; exact h rfl)
  | .ok _, .error _ => isFalse (by intro h; cases h)
  | .error _, .ok _ => isFalse (by intro h; cases h)
  | .error e, .error f =>
    if h : e = f then isTrue (by rw [h])
    else isFalse (by intro he; cases he; exact h rfl)

/-! ### The filename classifier (`src/scanner.rs`) -/

/-- Model of Rust `str::starts_with` for a string pattern. -/
def startsWithStr (s pat : Str) : Bool := pat.isPrefixOf s

/-- Model of Rust `str::ends_with` for a string pattern. -/
def endsWithStr (s pat : Str) : Bool := pat.reverse.isPrefixOf s.reverse

/-- Model of Rust `str::contains` for a string pattern. -/
def containsStr (s pat : Str) : Bool := s.tails.any (fun t => pat.isPrefixOf t)

/-- Model of Rust `str::trim_end_matches`, which removes *every* trailing
occurrence of the pattern: repeatedly strip the reversed pattern from the
front of the reversed string. The fuel, set to the string length by the
wrapper, bounds the number of iterations. -/
def stripSufFuel : Nat → Str → Str → Str
  | 0, _, r => r
  | fuel + 1, pr, r =>
    if pr ≠ [] ∧ pr.isPrefixOf r then stripSufFuel fuel pr (r.drop pr.length)
    else r

/-- Model of Rust `str::trim_end_matches`. -/
def trim_end_matches (s pat : Str) : Str :=
  (stripSufFuel s.length pat.reverse s.reverse).reverse

/-- `is_plain_env_file` from `src/scanner.rs`: starts with `.env` and ends
with neither recognized encrypted extension. -/
def is_plain_env_file (filename : Str) : Bool :=
  startsWithStr filename (strOf ".env") &&
  !endsWithStr filename (strOf ".enc") &&
  !endsWithStr filename (strOf ".encrypted")

/-- `is_encrypted_env_file` from `src/scanner.rs`: contains `.env` and ends
with a recognized encrypted extension. -/
def is_encrypted_env_file (filename : Str) : Bool :=
  containsStr filename (strOf ".env") &&
  (endsWithStr filename (strOf ".enc") || endsWithStr filename (strOf ".encrypted"))

/-- `default_output_name` from `src/scanner.rs`: Encrypt appends `.enc`;
Decrypt applies `trim_end_matches(".enc")` and then
`trim_end_matches(".encrypted")`. -/
def default_output_name (input : Str) (mode : ProcessMode) : Str :=
  match mode with
  | .Encrypt => input ++ strOf ".enc"
  | .Decrypt => trim_end_matches (trim_end_matches input (strOf ".enc")) (strOf ".encrypted")

/-! ### Declarative projections used by the claims -/

/-- What `process_line` preserves: a non-assignment line is returned
byte-identically, and an assignment line keeps its key span and its `'='`,
only the value span being replaced. -/
def LinePreserved (l o : Str) : Prop :=
  (isAssignment l = false → o = l) ∧
  (isAssignment l = true → ∃ v, o = keyOf l ++ '=' :: v)

/-- The keys a run would report, read off declaratively: the trimmed key
span of every non-blank, non-comment line containing `'='`, in order. -/
def reportedKeys (L : List Str) : List Str :=
  L.filterMap (fun l => if isAssignment l then some (trim (keyOf l)) else none)

/-- The value spans of all assignment lines, in order. -/
def assignmentValues (L : List Str) : List Str :=
  L.filterMap (fun l => if isAssignment l then some (valueOf l) else none)

/-- Written from the amended claim's words, independently of the
implementation: while the name still ends with the (non-empty) pattern,
remove one trailing occurrence of it. Used to state what Decrypt-mode
`default_output_name` computes on every input. -/
def stripAllSuffix (f pat : Str) : Str :=
  if h : pat ≠ [] ∧ endsWithStr f pat = true then
    stripAllSuffix (f.take (f.length - pat.length)) pat
  else f
termination_by f.length
decreasing_by
  obtain ⟨hne, hend⟩ := h
  have hp : pat.reverse <+: f.reverse := List.isPrefixOf_iff_prefix.mp hend
  have hlen : pat.length ≤ f.length := by
    have h2 := hp.length_le
    simpa using h2
  have hpos : 0 < pat.length := List.length_pos.mpr hne
  rw [List.length_take]
  omega

/-! ### Lemmas about trimming and the cipher codec -/

theorem dropWhile_eq_self (f : Char → Bool) (s : Str)
    (h : ∀ c ∈ s, f c = false) : s.dropWhile f = s := by
  cases s with
  | nil => rfl
  | cons c r =>
    rw [List.dropWhile_cons_of_neg]
    simp [h c (List.mem_cons_self c r)]

theorem trim_eq_self (s : Str) (h : ∀ c ∈ s, isRustWhitespace c = false) :
    trim s = s := by
  unfold trim trimStart trimEnd
  rw [dropWhile_eq_self _ _ h, dropWhile_eq_self, List.reverse_reverse]
  intro c hc
  exact h c (List.mem_reverse.mp hc)

theorem encNat_mem (n : Nat) : ∀ c ∈ encNat n, c = '1' ∨ c = '.' := by
  intro c hc
  unfold encNat at hc
  rcases List.mem_append.mp hc with h | h
  · exact Or.inl (List.eq_of_mem_replicate h)
  · right
    simpa using h

theorem encStr_mem (s : Str) : ∀ c ∈ encStr s, c = '1' ∨ c = '.' := by
  intro c hc
  unfold encStr at hc
  rcases List.mem_append.mp hc with h | h
  · exact encNat_mem _ c h
  · rcases List.mem_flatten.mp h with ⟨l, hl, hcl⟩
    rcases List.mem_map.mp hl with ⟨x, _, hx⟩
    subst hx
    exact encNat_mem _ c hcl

theorem cipherEncode_mem (p v : Str) : ∀ c ∈ cipherEncode p v, c = '1' ∨ c = '.' := by
  intro c hc
  rcases List.mem_append.mp hc with h | h
  · exact encStr_mem _ c h
  · exact encStr_mem _ c h

theorem trim_cipherEncode (p v : Str) : trim (cipherEncode p v) = cipherEncode p v := by
  apply trim_eq_self
  intro c hc
  rcases cipherEncode_mem p v c hc with h | h <;> subst h <;> decide

theorem takeWhile_ones (n : Nat) (r : Str) :
    (List.replicate n '1' ++ '.' :: r).takeWhile (fun c => c == '1') = List.replicate n '1' := by
  induction n with
  | zero => simp
  | succ n ih => simp [List.replicate_succ, ih]

theorem decodeNat_enc (n : Nat) (r : Str) : decodeNat (encNat n ++ r) = some (n, r) := by
  unfold decodeNat encNat
  rw [List.append_assoc, List.singleton_append, takeWhile_ones, List.length_replicate,
    List.drop_left' (by simp : (List.replicate n '1').length = n)]
  rfl

theorem decodeNat_encChar (c : Char) (r : Str) :
    decodeNat (encChar c ++ r) = some (c.toNat, r) := decodeNat_enc _ _

theorem decodeChars_enc (cs : Str) (r : Str) :
    decodeChars cs.length ((cs.map encChar).flatten ++ r) = some (cs, r) := by
  induction cs generalizing r with
  | nil => simp [decodeChars]
  | cons c cs ih => simp [decodeChars, List.append_assoc, decodeNat_encChar, ih]

theorem decodeStr_enc (s r : Str) : decodeStr (encStr s ++ r) = some (s, r) := by
  simp [decodeStr, encStr, List.append_assoc, decodeNat_enc, decodeChars_enc]

theorem cipherDecode_enc (p v : Str) : cipherDecode (cipherEncode p v) = some (p, v) := by
  have h2 := decodeStr_enc v []
  rw [List.append_nil] at h2
  simp [cipherDecode, cipherEncode, decodeStr_enc, h2]

/-! ### Lemmas about suffix stripping -/

theorem stripSufFuel_not (pr r : Str) (h : pr.isPrefixOf r = false) :
    ∀ fuel, stripSufFuel fuel pr r = r := by
  intro fuel
  cases fuel with
  | zero => rfl
  | succ f =>
    unfold stripSufFuel
    rw [if_neg]
    rintro ⟨-, hp⟩
    rw [h] at hp
    cases hp

theorem stripSufFuel_prefix_step (pr x : Str) (f : Nat) (h : pr ≠ []) :
    stripSufFuel (f + 1) pr (pr ++ x) = stripSufFuel f pr x := by
  simp only [stripSufFuel]
  rw [if_pos ⟨h, List.isPrefixOf_iff_prefix.mpr (List.prefix_append pr x)⟩, List.drop_left]

theorem stripSufFuel_stable (pr : Str) :
    ∀ f1 f2 r, r.length ≤ f1 → r.length ≤ f2 →
      stripSufFuel f1 pr r = stripSufFuel f2 pr r := by
  intro f1
  induction f1 with
  | zero =>
    intro f2 r h1 _
    have hr : r = [] := List.eq_nil_of_length_eq_zero (Nat.le_zero.mp h1)
    subst hr
    cases f2 with
    | zero => rfl
    | succ f =>
      unfold stripSufFuel
      rw [if_neg]
      rintro ⟨hne, hp⟩
      rw [List.isPrefixOf_iff_prefix] at hp
      exact hne (List.prefix_nil.mp hp)
  | succ f1 ih =>
    intro f2 r h1 h2
    cases f2 with
    | zero =>
      have hr : r = [] := List.eq_nil_of_length_eq_zero (Nat.le_zero.mp h2)
      subst hr
      unfold stripSufFuel
      rw [if_neg]
      rintro ⟨hne, hp⟩
      rw [List.isPrefixOf_iff_prefix] at hp
      exact hne (List.prefix_nil.mp hp)
    | succ f2 =>
      by_cases hc : pr ≠ [] ∧ pr.isPrefixOf r
      · obtain ⟨hne, hp⟩ := hc
        obtain ⟨x, hx⟩ := List.isPrefixOf_iff_prefix.mp hp
        subst hx
        rw [stripSufFuel_prefix_step pr x f1 hne, stripSufFuel_prefix_step pr x f2 hne]
        have hlen : 1 ≤ pr.length := List.length_pos.mpr hne
        have hx1 : x.length ≤ f1 := by
          have := List.length_append pr x
          omega
        have hx2 : x.length ≤ f2 := by
          have := List.length_append pr x
          omega
        exact ih f2 x hx1 hx2
      · unfold stripSufFuel
        rw [if_neg hc, if_neg hc]

theorem trim_end_matches_of_not_suffix (s pat : Str) (h : endsWithStr s pat = false) :
    trim_end_matches s pat = s := by
  unfold trim_end_matches
  unfold endsWithStr at h
  rw [stripSufFuel_not _ _ h, List.reverse_reverse]

theorem trim_end_matches_append (s pat : Str) (h : pat ≠ []) :
    trim_end_matches (s ++ pat) pat = trim_end_matches s pat := by
  unfold trim_end_matches
  have hp : 1 ≤ pat.length := List.length_pos.mpr h
  have hk : (s ++ pat).length = (s.length + (pat.length - 1)) + 1 := by
    rw [List.length_append]
    omega
  rw [List.reverse_append, hk,
    stripSufFuel_prefix_step _ _ _ (by simpa using h)]
  exact congrArg List.reverse
    (stripSufFuel_stable _ _ _ _ (by simp) (by simp))

theorem stripSufFuel_nil_pat (r : Str) : ∀ fuel, stripSufFuel fuel [] r = r := by
  intro fuel
  cases fuel with
  | zero => rfl
  | succ f =>
    simp only [stripSufFuel]
    rw [if_neg]
    rintro ⟨hne, -⟩
    exact hne rfl

theorem trim_end_matches_eq_stripAllSuffix_aux (pat : Str) :
    ∀ n (f : Str), f.length ≤ n → trim_end_matches f pat = stripAllSuffix f pat := by
  intro n
  induction n with
  | zero =>
    intro f hf
    have hfnil : f = [] := List.eq_nil_of_length_eq_zero (Nat.le_zero.mp hf)
    subst hfnil
    rw [stripAllSuffix, dif_neg]
    · rfl
    · rintro ⟨hne, hend⟩
      unfold endsWithStr at hend
      rw [List.reverse_nil] at hend
      have hp := List.isPrefixOf_iff_prefix.mp hend
      have hprev : pat.reverse = [] := List.prefix_nil.mp hp
      exact hne (by simpa using hprev)
  | succ n ih =>
    intro f hf
    by_cases hpat : pat = []
    · subst hpat
      rw [stripAllSuffix, dif_neg (by rintro ⟨hne, -⟩; exact hne rfl)]
      unfold trim_end_matches
      rw [List.reverse_nil, stripSufFuel_nil_pat, List.reverse_reverse]
    · by_cases hend : endsWithStr f pat = true
      · have hend' := hend
        unfold endsWithStr at hend'
        obtain ⟨x, hx⟩ := List.isPrefixOf_iff_prefix.mp hend'
        have hg : f = x.reverse ++ pat := by
          have h2 := congrArg List.reverse hx
          rw [List.reverse_reverse, List.reverse_append, List.reverse_reverse] at h2
          exact h2.symm
        rw [hg] at hf ⊢
        have hend2 : endsWithStr (x.reverse ++ pat) pat = true := by
          unfold endsWithStr
          rw [List.reverse_append, List.reverse_reverse]
          exact List.isPrefixOf_iff_prefix.mpr (List.prefix_append _ _)
        rw [trim_end_matches_append _ pat hpat, stripAllSuffix, dif_pos ⟨hpat, hend2⟩]
        have htake : (x.reverse ++ pat).length - pat.length = x.reverse.length := by
          rw [List.length_append]
          omega
        rw [htake, List.take_left]
        apply ih
        rw [List.length_append] at hf
        have hpos := List.length_pos.mpr hpat
        omega
      · have hend' : endsWithStr f pat = false := by
          revert hend
          cases endsWithStr f pat <;> simp
        rw [trim_end_matches_of_not_suffix f pat hend',
          stripAllSuffix, dif_neg (by rintro ⟨-, h2⟩; rw [hend'] at h2; cases h2)]

theorem trim_end_matches_eq_stripAllSuffix (f pat : Str) :
    trim_end_matches f pat = stripAllSuffix f pat :=
  trim_end_matches_eq_stripAllSuffix_aux pat f.length f le_rfl

/-! ### Lemmas about the first `'='` split -/

theorem findEq_some (l : Str) (i : Nat) (h : findEq l = some i) :
    l.take i = keyOf l ∧ l.drop (i + 1) = valueOf l := by
  induction l generalizing i with
  | nil => simp [findEq] at h
  | cons c r ih =>
    by_cases hc : c = '='
    · subst hc
      simp [findEq] at h
      subst h
      simp [keyOf, valueOf]
    · simp only [findEq, if_neg hc, Option.map_eq_some'] at h
      obtain ⟨j, hj, hji⟩ := h
      subst hji
      obtain ⟨h1, h2⟩ := ih j hj
      constructor
      · have hk : keyOf (c :: r) = c :: keyOf r := by
          unfold keyOf
          rw [List.takeWhile_cons_of_pos (by simp [hc])]
        rw [List.take_succ_cons, h1, hk]
      · have hv : valueOf (c :: r) = valueOf r := by
          unfold valueOf
          rw [List.dropWhile_cons_of_pos (by simp [hc])]
        rw [List.drop_succ_cons, h2, hv]

/-! ### Lemmas about line processing -/

theorem process_line_ok (l p : Str) (m : ProcessMode) (o : Str)
    (h : process_line l p m = .ok o) : LinePreserved l o := by
  unfold process_line at h
  by_cases hs : skippable l
  · rw [if_pos hs] at h
    cases h
    constructor
    · intro _
      rfl
    · intro ha
      rw [isAssignment, hs] at ha
      cases ha
  · rw [if_neg hs] at h
    cases hf : findEq l with
    | none =>
      rw [hf] at h
      dsimp only at h
      cases h
      constructor
      · intro _
        rfl
      · intro ha
        rw [isAssignment, hf] at ha
        simp at ha
    | some i =>
      rw [hf] at h
      dsimp only at h
      have hA : isAssignment l = true := by
        simp [isAssignment, hs, hf]
      have hkey := (findEq_some l i hf).1
      cases m with
      | Encrypt =>
        dsimp only at h
        cases h
        constructor
        · intro hfa
          rw [hA] at hfa
          cases hfa
        · intro _
          exact ⟨_, by rw [hkey]⟩
      | Decrypt =>
        dsimp only at h
        cases hd : decrypt_value (l.drop (i + 1)) p with
        | ok d =>
          rw [hd] at h
          dsimp only at h
          cases h
          constructor
          · intro hfa
            rw [hA] at hfa
            cases hfa
          · intro _
            exact ⟨d, by rw [hkey]⟩
        | error e =>
          rw [hd] at h
          cases h

theorem process_line_encrypt_isOk (l p : Str) :
    exOk (process_line l p .Encrypt) = true := by
  unfold process_line
  by_cases hs : skippable l
  · rw [if_pos hs]
    rfl
  · rw [if_neg hs]
    cases hf : findEq l with
    | none => rfl
    | some i => rfl

theorem process_line_decrypt_isOk_iff (l p : Str) :
    exOk (process_line l p .Decrypt) = false ↔
      isAssignment l = true ∧ exOk (decrypt_value (valueOf l) p) = false := by
  unfold process_line
  by_cases hs : skippable l
  · rw [if_pos hs]
    simp [exOk, isAssignment, hs]
  · rw [if_neg hs]
    cases hf : findEq l with
    | none => simp [exOk, isAssignment, hs, hf]
    | some i =>
      dsimp only
      have hv := (findEq_some l i hf).2
      rw [hv]
      cases hd : decrypt_value (valueOf l) p with
      | ok d => simp [exOk, isAssignment, hs, hf, hd]
      | error e => simp [exOk, isAssignment, hs, hf, hd]

theorem processFileLines_forall2 (L : List Str) (p : Str) (m : ProcessMode)
    (O K : List Str) (h : processFileLines L p m = .ok (O, K)) :
    List.Forall₂ LinePreserved L O := by
  induction L generalizing O K with
  | nil =>
    unfold processFileLines at h
    cases h
    exact List.Forall₂.nil
  | cons line rest ih =>
    unfold processFileLines at h
    cases hpl : process_line line p m with
    | error e =>
      rw [hpl] at h
      cases h
    | ok processed =>
      rw [hpl] at h
      cases hrest : processFileLines rest p m with
      | error e =>
        rw [hrest] at h
        cases h
      | ok pr =>
        obtain ⟨outs, keys⟩ := pr
        rw [hrest] at h
        cases h
        exact List.Forall₂.cons (process_line_ok _ _ _ _ hpl) (ih _ _ hrest)

theorem processFileLines_keys (L : List Str) (p : Str) (m : ProcessMode)
    (O K : List Str) (h : processFileLines L p m = .ok (O, K)) :
    K = reportedKeys L := by
  induction L generalizing O K with
  | nil =>
    unfold processFileLines at h
    cases h
    rfl
  | cons line rest ih =>
    unfold processFileLines at h
    cases hpl : process_line line p m with
    | error e =>
      rw [hpl] at h
      cases h
    | ok processed =>
      rw [hpl] at h
      cases hrest : processFileLines rest p m with
      | error e =>
        rw [hrest] at h
        cases h
      | ok pr =>
        obtain ⟨outs, keys⟩ := pr
        rw [hrest] at h
        cases h
        have hkeys := ih _ _ hrest
        cases hf : findEq line with
        | none =>
          have hA : isAssignment line = false := by
            simp [isAssignment, hf]
          simp [reportedKeys, List.filterMap_cons, hA, hf, hkeys]
        | some i =>
          by_cases hs : skippable line
          · have hA : isAssignment line = false := by
              simp [isAssignment, hs]
            simp [reportedKeys, List.filterMap_cons, hA, hf, hs, hkeys]
          · have hA : isAssignment line = true := by
              simp [isAssignment, hs, hf]
            have hkey := (findEq_some line i hf).1
            simp [reportedKeys, List.filterMap_cons, hA, hf, hs, hkeys, hkey]

theorem processFileLines_encrypt_isOk (L : List Str) (p : Str) :
    exOk (processFileLines L p .Encrypt) = true := by
  induction L with
  | nil => rfl
  | cons line rest ih =>
    unfold processFileLines
    cases hpl : process_line line p .Encrypt with
    | error e =>
      have := process_line_encrypt_isOk line p
      rw [hpl] at this
      cases this
    | ok processed =>
      cases hrest : processFileLines rest p .Encrypt with
      | error e =>
        rw [hrest] at ih
        cases ih
      | ok pr =>
        obtain ⟨outs, keys⟩ := pr
        rfl

theorem processFileLines_decrypt_isOk_iff (L : List Str) (p : Str) :
    exOk (processFileLines L p .Decrypt) = false ↔
      ∃ l ∈ L, isAssignment l = true ∧ exOk (decrypt_value (valueOf l) p) = false := by
  induction L with
  | nil => simp [processFileLines, exOk]
  | cons line rest ih =>
    unfold processFileLines
    cases hpl : process_line line p .Decrypt with
    | error e =>
      have hfail : exOk (process_line line p .Decrypt) = false := by
        rw [hpl]
        rfl
      have hline := (process_line_decrypt_isOk_iff line p).mp hfail
      constructor
      · intro _
        exact ⟨line, List.mem_cons_self line rest, hline⟩
      · intro _
        rfl
    | ok processed =>
      have hlineok : exOk (process_line line p .Decrypt) = true := by
        rw [hpl]
        rfl
      have hnot : ¬(isAssignment line = true ∧
          exOk (decrypt_value (valueOf line) p) = false) := by
        intro hA
        have := (process_line_decrypt_isOk_iff line p).mpr hA
        rw [hlineok] at this
        cases this
      cases hrest : processFileLines rest p .Decrypt with
      | error e =>
        have hrfail : exOk (processFileLines rest p .Decrypt) = false := by
          rw [hrest]
          rfl
        obtain ⟨l, hl, hprop⟩ := ih.mp hrfail
        constructor
        · intro _
          exact ⟨l, List.mem_cons_of_mem _ hl, hprop⟩
        · intro _
          rfl
      | ok pr =>
        obtain ⟨outs, keys⟩ := pr
        constructor
        · intro hfalse
          cases hfalse
        · rintro ⟨l, hl, hprop⟩
          rcases List.mem_cons.mp hl with heq | hmem
          · subst heq
            exact absurd hprop hnot
          · have := ih.mpr ⟨l, hmem, hprop⟩
            rw [hrest] at this
            cases this

theorem process_file_ok_elim (c p : Str) (m : ProcessMode) (out : Str)
    (keys : List Str) (h : process_file c p m = .ok (out, keys)) :
    ∃ O, processFileLines (rustLines c) p m = .ok (O, keys) ∧ out = joinLines O := by
  unfold process_file at h
  cases hp : processFileLines (rustLines c) p m with
  | error e =>
    rw [hp] at h
    cases h
  | ok pr =>
    obtain ⟨O, K⟩ := pr
    rw [hp] at h
    cases h
    exact ⟨O, rfl, rfl⟩

theorem process_file_isOk (c p : Str) (m : ProcessMode) :
    exOk (process_file c p m) = exOk (processFileLines (rustLines c) p m) := by
  unfold process_file
  cases hp : processFileLines (rustLines c) p m with
  | error e => rfl
  | ok pr =>
    obtain ⟨O, K⟩ := pr
    rfl

/-! ### Lemmas about validation -/

theorem validateScan_eq (L : List Str) :
    validateScan L = (!(assignmentValues L).isEmpty,
      ((assignmentValues L).filter is_likely_encrypted).length,
      ((assignmentValues L).filter (fun v => !is_likely_encrypted v)).length) := by
  induction L with
  | nil => rfl
  | cons line rest ih =>
    unfold validateScan
    by_cases hs : skippable line
    · have hA : isAssignment line = false := by
        simp [isAssignment, hs]
      rw [if_pos hs, ih]
      simp [assignmentValues, List.filterMap_cons, hA]
    · rw [if_neg hs]
      cases hf : findEq line with
      | none =>
        have hA : isAssignment line = false := by
          simp [isAssignment, hf]
        rw [ih]
        simp [assignmentValues, List.filterMap_cons, hA]
      | some i =>
        dsimp only
        have hA : isAssignment line = true := by
          simp [isAssignment, hs, hf]
        have hv := (findEq_some line i hf).2
        rw [hv, ih]
        by_cases hl : is_likely_encrypted (valueOf line) = true
        · rw [if_pos hl]
          simp [assignmentValues, List.filterMap_cons, hA, hl]
        · rw [if_neg hl]
          simp only [Bool.not_eq_true] at hl
          simp [assignmentValues, List.filterMap_cons, hA, hl]

example : rustLines (strOf "") = [] := by decide
example : rustLines (strOf "a\n") = [strOf "a"] := by decide
example : rustLines (strOf "a\r\nb") = [strOf "a", strOf "b"] := by decide
example : rustLines (strOf "a\r") = [strOf "a\r"] := by decide
example : rustLines (strOf "\n\n") = [strOf "", strOf ""] := by decide
example : trim (strOf "  a b\t") = strOf "a b" := by decide
example : findEq (strOf "AB=c=d") = some 2 := by decide
example : keyOf (strOf "AB=c=d") = strOf "AB" := by decide
example : valueOf (strOf "AB=c=d") = strOf "c=d" := by decide
example : skippable (strOf "  # x") = true := by decide
example : isAssignment (strOf " K = v") = true := by decide
example : decrypt_value (encrypt_value (strOf " v ") (strOf "p")) (strOf "p") = .ok (strOf "v") := by decide
example : exOk (decrypt_value (encrypt_value (strOf "v") (strOf "p")) (strOf "q")) = false := by decide
example : default_output_name (strOf ".env") .Encrypt = strOf ".env.enc" := by decide
example : default_output_name (strOf ".env.enc") .Decrypt = strOf ".env" := by decide
example : default_output_name (strOf ".env.local") .Decrypt = strOf ".env.local" := by decide
example : default_output_name (strOf ".env.enc.enc") .Decrypt = strOf ".env" := by decide
example : default_output_name (strOf ".env.encrypted") .Decrypt = strOf ".env" := by decide
example : default_output_name (strOf ".env.enc.encrypted") .Decrypt = strOf ".env.enc" := by decide
example : is_plain_env_file (strOf ".env.local") = true := by decide
example : is_plain_env_file (strOf ".env.enc") = false := by decide
example : is_encrypted_env_file (strOf ".env.local.enc") = true := by decide
example : is_likely_encrypted (strOf "QUJDREVGR0g=") = true := by decide
example : is_likely_encrypted (strOf "localhost") = false := by decide
example : validate_encrypted_file (strOf "# only comment\n") = .error .noVariables := by decide
example : validate_encrypted_file (strOf "DB_HOST=localhost\n") = .error .appearsUnencrypted := by decide

/-! ### The claims -/

/-- C1, counterexample: on `".env.enc.enc"` in Decrypt mode,
`default_output_name` strips *both* trailing `".enc"` suffixes
(`trim_end_matches` removes every trailing occurrence), so the result is
`".env"` and not the `".env.enc"` the claim's "exactly one suffix removed"
reading requires. -/
theorem C1_counterexample :
    default_output_name (strOf ".env.enc.enc") .Decrypt = strOf ".env" ∧
    strOf ".env" ≠ strOf ".env.enc" := by
  decide

/-- C1, amended: for *every* input path, Encrypt mode appends `".enc"`,
and Decrypt mode removes every trailing `".enc"` suffix and then every
trailing `".encrypted"` suffix (`stripAllSuffix` restates that rule in the
amended claim's words); in particular a name carrying a single recognized
suffix loses exactly that suffix, and `".env.local"` is unchanged. -/
theorem C1_default_output_name_characterization (f : Str) :
    default_output_name f .Encrypt = f ++ strOf ".enc" ∧
    default_output_name f .Decrypt =
      stripAllSuffix (stripAllSuffix f (strOf ".enc")) (strOf ".encrypted") ∧
    default_output_name (strOf ".env.enc") .Decrypt = strOf ".env" ∧
    default_output_name (strOf ".env.encrypted") .Decrypt = strOf ".env" ∧
    default_output_name (strOf ".env.local") .Decrypt = strOf ".env.local" := by
  refine ⟨rfl, ?_, by decide, by decide, by decide⟩
  unfold default_output_name
  rw [trim_end_matches_eq_stripAllSuffix, trim_end_matches_eq_stripAllSuffix]

/-- C2: round-trip — decrypting an encryption under the same password
succeeds and returns the value trimmed of leading and trailing whitespace. -/
theorem C2_roundtrip (v p : Str) :
    decrypt_value (encrypt_value v p) p = .ok (trim v) := by
  unfold encrypt_value decrypt_value
  rw [trim_cipherEncode, cipherDecode_enc]
  simp

/-- C3: structure preservation — a successful `process_file` run joins with
`'\n'` exactly one output line per input line, in order; every non-assignment
line (blank, comment, or without `'='`) is byte-identical, and an assignment
line keeps its key span and `'='`, only the value span changing. -/
theorem C3_structure_preservation (c p : Str) (m : ProcessMode) (out : Str)
    (keys : List Str) (h : process_file c p m = .ok (out, keys)) :
    ∃ O : List Str, out = joinLines O ∧ O.length = (rustLines c).length ∧
      List.Forall₂ LinePreserved (rustLines c) O := by
  obtain ⟨O, hO, hout⟩ := process_file_ok_elim c p m out keys h
  have hf := processFileLines_forall2 _ _ _ _ _ hO
  exact ⟨O, hout, (List.Forall₂.length_eq hf).symm, hf⟩

/-- C3, witness: concrete run on `"# c\nA="` with the empty password. -/
theorem C3_witness :
    ∃ O : List Str, strOf "# c\nA=.." = joinLines O ∧
      O.length = (rustLines (strOf "# c\nA=")).length ∧
      List.Forall₂ LinePreserved (rustLines (strOf "# c\nA=")) O :=
  C3_structure_preservation (strOf "# c\nA=") (strOf "") .Encrypt
    (strOf "# c\nA=..") [strOf "A"] (by decide)

/-- C4: atomicity — `process_file` always succeeds in Encrypt mode, and in
Decrypt mode it fails (returning an error, hence no output tuple) exactly
when `decrypt_value` fails on the value of some non-blank, non-comment line
containing `'='`. -/
theorem C4_atomicity (c p : Str) :
    exOk (process_file c p .Encrypt) = true ∧
    (exOk (process_file c p .Decrypt) = false ↔
      ∃ l ∈ rustLines c, isAssignment l = true ∧
        exOk (decrypt_value (valueOf l) p) = false) := by
  constructor
  · rw [process_file_isOk]
    exact processFileLines_encrypt_isOk _ _
  · rw [process_file_isOk]
    exact processFileLines_decrypt_isOk_iff _ _

/-- C5: `validate_encrypted_file` fails with "no variables" exactly when
there is no assignment line; fails with "appears unencrypted" exactly when
assignment values exist and none looks encrypted; and succeeds exactly when
some assignment value looks encrypted (in particular on mixed files). -/
theorem C5_validate_characterization (c : Str) :
    (validate_encrypted_file c = .error .noVariables ↔
      assignmentValues (rustLines c) = []) ∧
    (validate_encrypted_file c = .error .appearsUnencrypted ↔
      (assignmentValues (rustLines c) ≠ [] ∧
        ∀ v ∈ assignmentValues (rustLines c), is_likely_encrypted v = false)) ∧
    (validate_encrypted_file c = .ok () ↔
      ∃ v ∈ assignmentValues (rustLines c), is_likely_encrypted v = true) := by
  unfold validate_encrypted_file
  rw [validateScan_eq]
  dsimp only
  by_cases hnil : assignmentValues (rustLines c) = []
  · rw [hnil]
    simp
  · rw [if_neg (by simp [hnil])]
    by_cases hall : ∀ v ∈ assignmentValues (rustLines c), is_likely_encrypted v = false
    · have henc : (assignmentValues (rustLines c)).filter is_likely_encrypted = [] := by
        rw [List.filter_eq_nil_iff]
        intro a ha
        simp [hall a ha]
      have hplain : (assignmentValues (rustLines c)).filter
          (fun v => !is_likely_encrypted v) = assignmentValues (rustLines c) := by
        rw [List.filter_eq_self]
        intro a ha
        simp [hall a ha]
      rw [if_pos ⟨by rw [henc]; rfl, by rw [hplain]; exact List.length_pos.mpr hnil⟩]
      refine ⟨?_, ?_, ?_⟩
      · simp [hnil]
      · exact ⟨fun _ => ⟨hnil, hall⟩, fun _ => rfl⟩
      · constructor
        · intro h
          exact absurd h (by simp)
        · rintro ⟨v, hv, hl⟩
          rw [hall v hv] at hl
          cases hl
    · push_neg at hall
      obtain ⟨v0, hv0, hl0⟩ := hall
      have hl0t : is_likely_encrypted v0 = true := by
        revert hl0
        cases is_likely_encrypted v0 <;> simp
      have hpos : 0 < ((assignmentValues (rustLines c)).filter is_likely_encrypted).length :=
        List.length_pos.mpr (List.ne_nil_of_mem (List.mem_filter.mpr ⟨hv0, hl0t⟩))
      rw [if_neg (by rintro ⟨h0, -⟩; omega)]
      refine ⟨?_, ?_, ?_⟩
      · simp [hnil]
      · constructor
        · intro h
          exact absurd h (by simp)
        · rintro ⟨-, hallf⟩
          rw [hallf v0 hv0] at hl0t
          cases hl0t
      · exact ⟨fun _ => ⟨v0, hv0, hl0t⟩, fun _ => rfl⟩

/-- C6: for a filename classified plain, encrypt-then-decrypt name
derivation returns the original name. -/
theorem C6_name_roundtrip (f : Str) (h : is_plain_env_file f = true) :
    default_output_name (default_output_name f .Encrypt) .Decrypt = f := by
  unfold is_plain_env_file at h
  simp only [Bool.and_eq_true, Bool.not_eq_true'] at h
  obtain ⟨⟨-, h1⟩, h2⟩ := h
  unfold default_output_name
  rw [trim_end_matches_append f (strOf ".enc") (by decide),
    trim_end_matches_of_not_suffix f _ h1,
    trim_end_matches_of_not_suffix f _ h2]

/-- C6, witness: the pairing evaluated on `".env"`. -/
theorem C6_witness :
    default_output_name (default_output_name (strOf ".env") .Encrypt) .Decrypt =
      strOf ".env" :=
  C6_name_roundtrip (strOf ".env") (by decide)

/-- C7: classification exclusivity — no filename is both a plain target
and an encrypted target. -/
theorem C7_classification_exclusive (f : Str) :
    (is_plain_env_file f && is_encrypted_env_file f) = false := by
  unfold is_plain_env_file is_encrypted_env_file
  cases h1 : endsWithStr f (strOf ".enc") <;>
    cases h2 : endsWithStr f (strOf ".encrypted") <;> simp [h1, h2]

/-- C8: the key list of a successful run is exactly the trimmed key span of
every non-blank, non-comment line containing `'='`, in source order, one
entry per such line. -/
theorem C8_reported_keys (c p : Str) (m : ProcessMode) (out : Str)
    (keys : List Str) (h : process_file c p m = .ok (out, keys)) :
    keys = reportedKeys (rustLines c) := by
  obtain ⟨O, hO, -⟩ := process_file_ok_elim c p m out keys h
  exact processFileLines_keys _ _ _ _ _ hO

/-- C8, witness: concrete run on `"A="` with the empty password. -/
theorem C8_witness : [strOf "A"] = reportedKeys (rustLines (strOf "A=")) :=
  C8_reported_keys (strOf "A=") (strOf "") .Encrypt (strOf "A=..")
    [strOf "A"] (by decide)

/-- C9: wrong-key rejection — decrypting under any password other than the
encrypting one fails. -/
theorem C9_wrong_key (v p1 p2 : Str) (h : p1 ≠ p2) :
    decrypt_value (encrypt_value v p1) p2 = .error .decryptionFailed := by
  unfold encrypt_value decrypt_value
  rw [trim_cipherEncode, cipherDecode_enc]
  dsimp only
  rw [if_neg h]

/-- C9, witness: concrete distinct passwords. -/
theorem C9_witness :
    strOf "a" ≠ strOf "b" ∧
    decrypt_value (encrypt_value (strOf "v") (strOf "a")) (strOf "b") =
      .error .decryptionFailed :=
  ⟨by decide, C9_wrong_key (strOf "v") (strOf "a") (strOf "b") (by decide)⟩

end Envc
